import Mathlib

/-!
Verification of the jiosaavn-hourly-tracker time-series engine.

Shallow embedding of the three source files:
* `update_counts.py` — ingestion (`should_append_hourly`, `update_song`),
  persistence (`load_json`/`save_json`), summary (`find_reference`,
  `build_summary`);
* `convert_csv_to_json.py` — the gap filter (`filter_hour_gaps`);
* `app.py` — the legacy Flask ingestion loop (`update_play_count`).

Timestamps are the strings the system writes (`strftime '%Y-%m-%d %H:%M:%S IST'`).
`datetime.strptime` with the fixed format `'%Y-%m-%d %H:%M:%S'` is modelled by a
parser for the zero-padded form of that format (the only form the system itself
ever produces), validating calendar ranges exactly as `datetime` does.
Python `datetime` arithmetic is modelled by mapping a civil datetime to a count
of seconds in the proleptic Gregorian calendar, which agrees with `datetime`
subtraction (`total_seconds`) on the second-granularity values in play.
-/

/-! ## Definitions: the shallow embedding of the three source files -/

/-- A civil datetime as produced by `datetime.strptime` (naive, fixed zone). -/
structure DT where
  year : Nat
  month : Nat
  day : Nat
  hour : Nat
  minute : Nat
  second : Nat
deriving DecidableEq

/-- Gregorian leap-year rule, as used by Python `datetime`. -/
def isLeapYear (y : Nat) : Bool :=
  (y % 4 == 0 && y % 100 != 0) || y % 400 == 0

/-- Number of days in a month, as validated by the `datetime` constructor. -/
def daysInMonth (y m : Nat) : Nat :=
  match m with
  | 1 => 31
  | 2 => if isLeapYear y then 29 else 28
  | 3 => 31
  | 4 => 30
  | 5 => 31
  | 6 => 30
  | 7 => 31
  | 8 => 31
  | 9 => 30
  | 10 => 31
  | 11 => 30
  | 12 => 31
  | _ => 0

/-- Days in the months strictly before month `m` of year `y`. -/
def daysBeforeMonth (y m : Nat) : Nat :=
  (match m with
   | 1 => 0
   | 2 => 31
   | 3 => 59
   | 4 => 90
   | 5 => 120
   | 6 => 151
   | 7 => 181
   | 8 => 212
   | 9 => 243
   | 10 => 273
   | 11 => 304
   | 12 => 334
   | _ => 0)
  + (if 2 < m && isLeapYear y then 1 else 0)

/-- Days strictly before January 1 of year `y` (proleptic Gregorian,
matching Python's `date.toordinal` up to a constant). -/
def daysBeforeYear (y : Nat) : Nat :=
  365 * (y - 1) + (y - 1) / 4 - (y - 1) / 100 + (y - 1) / 400

/-- Seconds since the calendar epoch; differences agree with Python
`(a - b).total_seconds()` for naive datetimes. -/
def toSecs (d : DT) : Nat :=
  (daysBeforeYear d.year + daysBeforeMonth d.year d.month + (d.day - 1)) * 86400
    + d.hour * 3600 + d.minute * 60 + d.second

/-- The datetime ranges accepted by the `datetime` constructor for values the
system formats back out with `strftime`. -/
def DT.Valid (d : DT) : Prop :=
  1 ≤ d.year ∧ d.year ≤ 9999 ∧ 1 ≤ d.month ∧ d.month ≤ 12 ∧
  1 ≤ d.day ∧ d.day ≤ daysInMonth d.year d.month ∧
  d.hour ≤ 23 ∧ d.minute ≤ 59 ∧ d.second ≤ 59

instance (d : DT) : Decidable d.Valid := by
  unfold DT.Valid; infer_instance

/-- The character for a decimal digit, as emitted by `strftime` / `str`. -/
def digitChar (n : Nat) : Char := Char.ofNat (48 + n)

/-- Numeric value of a decimal digit character. -/
def digitVal (c : Char) : Nat := c.toNat - 48

/-- Python `str.replace(' IST', '')`: delete every (non-overlapping,
left-to-right) occurrence of the four characters `" IST"`. -/
def removeIST (l : List Char) : List Char :=
  match l with
  | [] => []
  | c :: rest =>
    if c = ' ' ∧ rest.take 3 = ['I', 'S', 'T'] then removeIST (rest.drop 3)
    else c :: removeIST rest
termination_by l.length
decreasing_by
  · simp only [List.length_cons, List.length_drop]; omega
  · simp only [List.length_cons]; omega

/-- Python `str.strip()`: drop whitespace from both ends. -/
def stripChars (l : List Char) : List Char :=
  ((l.dropWhile Char.isWhitespace).reverse.dropWhile Char.isWhitespace).reverse

/-- Strict parse of the zero-padded `'%Y-%m-%d %H:%M:%S'` form, with the range
validation `datetime.strptime` performs. -/
def parseCore (l : List Char) : Option DT :=
  match l with
  | [y1, y2, y3, y4, a1, m1, m2, a2, d1, d2, a3, h1, h2, a4, n1, n2, a5, s1, s2] =>
    if a1 = '-' ∧ a2 = '-' ∧ a3 = ' ' ∧ a4 = ':' ∧ a5 = ':' ∧
       y1.isDigit ∧ y2.isDigit ∧ y3.isDigit ∧ y4.isDigit ∧
       m1.isDigit ∧ m2.isDigit ∧ d1.isDigit ∧ d2.isDigit ∧
       h1.isDigit ∧ h2.isDigit ∧ n1.isDigit ∧ n2.isDigit ∧
       s1.isDigit ∧ s2.isDigit then
      let y := 1000 * digitVal y1 + 100 * digitVal y2 + 10 * digitVal y3 + digitVal y4
      let mo := 10 * digitVal m1 + digitVal m2
      let da := 10 * digitVal d1 + digitVal d2
      let ho := 10 * digitVal h1 + digitVal h2
      let mi := 10 * digitVal n1 + digitVal n2
      let se := 10 * digitVal s1 + digitVal s2
      if 1 ≤ y ∧ 1 ≤ mo ∧ mo ≤ 12 ∧ 1 ≤ da ∧ da ≤ daysInMonth y mo ∧
         ho ≤ 23 ∧ mi ≤ 59 ∧ se ≤ 59 then
        some ⟨y, mo, da, ho, mi, se⟩
      else none
    else none
  | _ => none

/-- `datetime.strptime(ts.replace(' IST','').strip(), '%Y-%m-%d %H:%M:%S')`,
returning `none` where Python raises.  This single definition models the three
textually identical parse sites: `safe_parse_ts` and the inline parse in
`should_append_hourly` (update_counts.py) and `parse_ts`
(convert_csv_to_json.py). -/
def parse_ts (s : String) : Option DT :=
  parseCore (stripChars (removeIST s.toList))

/-- Python `int(s)` on the decimal strings this system stores (digit strings,
possibly with surrounding whitespace); `none` where `int` raises. -/
def intParse (s : String) : Option Nat :=
  let l := stripChars s.toList
  if l ≠ [] ∧ ∀ c ∈ l, c.isDigit then
    some (l.foldl (fun acc c => 10 * acc + digitVal c) 0)
  else none

/-- Two-digit zero-padded field of `strftime`. -/
def pad2 (n : Nat) : List Char := [digitChar (n / 10), digitChar (n % 10)]

/-- Four-digit zero-padded year field of `strftime`. -/
def pad4 (n : Nat) : List Char := pad2 (n / 100) ++ pad2 (n % 100)

/-- The characters of `strftime('%Y-%m-%d %H:%M:%S')`. -/
def fmtChars (d : DT) : List Char :=
  pad4 d.year ++ '-' :: (pad2 d.month ++ '-' :: (pad2 d.day ++ ' ' ::
    (pad2 d.hour ++ ':' :: (pad2 d.minute ++ ':' :: pad2 d.second))))

/-- `now_dt.strftime('%Y-%m-%d %H:%M:%S IST')`, the timestamp string written
into every stored entry. -/
def fmtTS (d : DT) : String :=
  ⟨fmtChars d ++ [' ', 'I', 'S', 'T']⟩

/-- Digits of `str(count)` for a non-negative Python int. -/
def natChars (n : Nat) : List Char :=
  if n < 10 then [digitChar n]
  else natChars (n / 10) ++ [digitChar (n % 10)]
termination_by n
decreasing_by
  exact Nat.div_lt_self (by omega) (by omega)

/-- `str(count)` for a non-negative Python int. -/
def strOfNat (n : Nat) : String := ⟨natChars n⟩

/-- One stored record: the two fields every persisted sample carries. -/
structure Entry where
  timestamp : String
  play_count : String
deriving DecidableEq

/-- The `(year, month, day, hour)` calendar-hour bucket compared by
`should_append_hourly`. -/
def bucket (d : DT) : Nat × Nat × Nat × Nat := (d.year, d.month, d.day, d.hour)

/-- `should_append_hourly(existing, now_dt)`: `True` on an empty series or an
unparseable last timestamp, else `True` iff the `(year, month, day, hour)`
tuples differ. -/
def should_append_hourly (existing : List Entry) (now_dt : DT) : Bool :=
  match existing.getLast? with
  | none => true
  | some last =>
    match parse_ts last.timestamp with
    | none => true
    | some last_dt => decide (bucket now_dt ≠ bucket last_dt)

/-- Outcome of one `update_song` run, matching the §4.2 / §7 signal taxonomy
(`False` returns carry the printed reason, `True` is an append). -/
inductive UpdateResult
  | fetchFailed
  | decreasingRejected
  | sameBucketSkipped
  | appended
deriving DecidableEq

/-- The entry dict `update_song` appends:
`{'timestamp': now_dt.strftime('%Y-%m-%d %H:%M:%S IST'), 'play_count': str(count)}`. -/
def mkEntry (now_dt : DT) (count : Nat) : Entry :=
  ⟨fmtTS now_dt, strOfNat count⟩

/-- Pure core of `update_song`: the loaded series, the fetched count
(`none` when `fetch_play_count` returned `None`), and the current time, to the
series that ends up saved and the outcome.  The inner `try/except: pass`
around the decreasing comparison is the `none => false` arm. -/
def update_song_step (data : List Entry) (count : Option Nat) (now_dt : DT) :
    List Entry × UpdateResult :=
  match count with
  | none => (data, .fetchFailed)
  | some c =>
    let dec : Bool :=
      match data.getLast? with
      | none => false
      | some last =>
        match intParse last.play_count with
        | none => false
        | some v => decide (c < v)
    if dec then (data, .decreasingRejected)
    else if should_append_hourly data now_dt then
      (data ++ [mkEntry now_dt c], .appended)
    else (data, .sameBucketSkipped)

/-- The on-disk history file: absent, present but not valid JSON, or a valid
JSON list of entries. -/
inductive FileState
  | missing
  | corrupt (raw : String)
  | good (entries : List Entry)
deriving DecidableEq

/-- `load_json`: `[]` when the file does not exist, `[]` when `json.load`
raises (the bare `except: return []`), else the stored list. -/
def load_json : FileState → List Entry
  | .missing => []
  | .corrupt _ => []
  | .good l => l

/-- `save_json`: write-temp-then-`os.replace`, atomically making the file the
given list regardless of what was there before. -/
def save_json (_prev : FileState) (data : List Entry) : FileState := .good data

/-- `update_song` at the file level: load, decide, and save only on append. -/
def update_song_io (fs : FileState) (count : Option Nat) (now_dt : DT) : FileState :=
  let data := load_json fs
  let res := update_song_step data count now_dt
  if res.2 = .appended then save_json fs res.1 else fs

/-- The loop body of `find_reference`: running `closest`/`min_diff` pair
(`none` is the initial `closest = None; min_diff = float('inf')`), skipping
entries whose timestamp fails `safe_parse_ts`, keeping the first strict
improvement. -/
def findRefAux : List Entry → Int → Option (Entry × Int) → Option Entry
  | [], _, best => best.map Prod.fst
  | e :: rest, target, best =>
    match parse_ts e.timestamp with
    | none => findRefAux rest target best
    | some t =>
      let diff := |(toSecs t : Int) - target|
      match best with
      | none => findRefAux rest target (some (e, diff))
      | some b =>
        if diff < b.2 then findRefAux rest target (some (e, diff))
        else findRefAux rest target best

/-- `find_reference(entries, hours_back)` with the implicit
`datetime.now(IST)` passed explicitly as `nowSecs`;
`target_time = now - timedelta(hours=hours_back)`. -/
def find_reference (entries : List Entry) (nowSecs : Int) (hours_back : Nat) :
    Option Entry :=
  findRefAux entries (nowSecs - (hours_back : Int) * 3600) none

/-- The per-song record `build_summary` writes into `summary['songs']`. -/
structure SongSummary where
  current : Nat
  previous_hour : Option Nat
  hour_increase : Option Int
  previous_24h : Option Nat
  day_increase : Option Int
  entries : Nat
deriving DecidableEq

/-- Per-song body of `build_summary`: `none` when the song is skipped
(`if not data: continue`) or when an unguarded `int(...)` raises
(`curr_count`, or the `previous_hour`/`previous_24h` fields, which sit outside
the `try`); the guarded `hour_inc`/`day_inc` computations fall back to `None`
through their `except: pass`. -/
def summary_for_song (data : List Entry) (nowSecs : Int) : Option SongSummary :=
  match data.getLast? with
  | none => none
  | some current =>
    match intParse current.play_count with
    | none => none
    | some curr_count =>
      let prev_hour := find_reference data nowSecs 1
      let prev_day := find_reference data nowSecs 24
      let hour_inc : Option Int :=
        match prev_hour with
        | none => none
        | some p =>
          match intParse p.play_count with
          | none => none
          | some pv => some ((curr_count : Int) - pv)
      let day_inc : Option Int :=
        match prev_day with
        | none => none
        | some p =>
          match intParse p.play_count with
          | none => none
          | some pv => some ((curr_count : Int) - pv)
      let ph : Option (Option Nat) :=
        match prev_hour with
        | none => some none
        | some p => (intParse p.play_count).map some
      let pd : Option (Option Nat) :=
        match prev_day with
        | none => some none
        | some p => (intParse p.play_count).map some
      match ph, pd with
      | some phv, some pdv =>
        some ⟨curr_count, phv, hour_inc, pdv, day_inc, data.length⟩
      | _, _ => none

/-- Per-song body of `update_play_count` in app.py: fetch result is a raw
string (`None` on failure, skipped when falsy); an entry is appended (and
saved to CSV) whenever it is the first entry or the play-count string merely
differs from the last stored one. -/
def update_play_count_step (entries : List Entry) (fetched : Option String)
    (now_dt : DT) : List Entry :=
  match fetched with
  | none => entries
  | some pc =>
    if pc = "" then entries
    else
      let is_new_entry : Bool :=
        match entries.getLast? with
        | none => true
        | some last => decide (last.play_count ≠ pc)
      if is_new_entry then entries ++ [⟨fmtTS now_dt, pc⟩] else entries

/-- Sort key of `sorted(entries, key=lambda e: parse_ts(e['timestamp']))`,
as seconds.  Total with a dummy value on unparseable timestamps;
`filter_hour_gaps` only exposes results when every timestamp parses
(in Python an unparseable timestamp raises out of the whole call). -/
def keyOf (e : Entry) : Int :=
  match parse_ts e.timestamp with
  | some d => (toSecs d : Int)
  | none => 0

/-- Comparison relation of the Python stable sort by parsed timestamp. -/
def tsLE (a b : Entry) : Prop := keyOf a ≤ keyOf b

instance : DecidableRel tsLE := fun a b => inferInstanceAs (Decidable (keyOf a ≤ keyOf b))

instance : IsTotal Entry tsLE := ⟨fun a b => Int.le_total (keyOf a) (keyOf b)⟩

instance : IsTrans Entry tsLE := ⟨fun _ _ _ hab hbc => le_trans hab hbc⟩

/-- Python `sorted` is a stable sort; `List.insertionSort` places an element
before the later-scanned elements of equal key, which is the same stability. -/
def sortByTS (l : List Entry) : List Entry := l.insertionSort tsLE

/-- The scan of `filter_hour_gaps`: `last_kept_time = None` keeps the first
sample; afterwards a sample is kept exactly when
`(current - last_kept).total_seconds()/60 >= gap_minutes - 5`. -/
def scanKeep (g : Int) : List Entry → Option Int → List Entry
  | [], _ => []
  | e :: rest, none => e :: scanKeep g rest (some (keyOf e))
  | e :: rest, some lk =>
    if keyOf e - lk ≥ (g - 5) * 60 then e :: scanKeep g rest (some (keyOf e))
    else scanKeep g rest (some lk)

/-- The trailing `if filtered and filtered[-1]['timestamp'] !=
entries_sorted[-1]['timestamp']: filtered.append(entries_sorted[-1])`. -/
def forceLast (filtered entries_sorted : List Entry) : List Entry :=
  match filtered.getLast?, entries_sorted.getLast? with
  | some f, some s => if f.timestamp ≠ s.timestamp then filtered ++ [s] else filtered
  | _, _ => filtered

/-- `filter_hour_gaps(entries, gap_minutes=60)`; `none` when some timestamp
fails to parse (in Python the `parse_ts` inside the sort key or the loop
raises out of the call). -/
def filter_hour_gaps (entries : List Entry) (gap_minutes : Int) :
    Option (List Entry) :=
  if entries.isEmpty then some []
  else if entries.all (fun e => (parse_ts e.timestamp).isSome) then
    let entries_sorted := sortByTS entries
    let filtered := scanKeep gap_minutes entries_sorted none
    some (forceLast filtered entries_sorted)
  else none

/-- Both entries' play counts parse and are non-decreasing, as Booleans. -/
def valLE (a b : Entry) : Bool :=
  match intParse a.play_count, intParse b.play_count with
  | some va, some vb => decide (va ≤ vb)
  | _, _ => false

/-- Every stored play count parses as an integer and consecutive values are
non-decreasing — the §8 monotonicity invariant `value[i] >= value[i-1]`. -/
def ValuesMono (l : List Entry) : Prop :=
  (∀ e ∈ l, (intParse e.play_count).isSome = true) ∧
  List.Chain' (fun a b => valLE a b = true) l

/-- `r` is the first entry of `l` attaining the minimal absolute distance to
`target` among entries with parseable timestamps. -/
def IsFirstMin (l : List Entry) (target : Int) (r : Entry) : Prop :=
  ∃ t l1 l2, parse_ts r.timestamp = some t ∧ l = l1 ++ r :: l2 ∧
    (∀ e ∈ l1, ∀ u, parse_ts e.timestamp = some u →
      |(toSecs t : Int) - target| < |(toSecs u : Int) - target|) ∧
    (∀ e ∈ l2, ∀ u, parse_ts e.timestamp = some u →
      |(toSecs t : Int) - target| ≤ |(toSecs u : Int) - target|)

/-- Consecutive kept keys each at least `T` above the previous, starting from
last-kept key `lk`. -/
def ChainFrom (T : Int) : Int → List Entry → Prop
  | _, [] => True
  | lk, e :: rest => T ≤ keyOf e - lk ∧ ChainFrom T (keyOf e) rest

/-- The key of the last element, or `lk` for the empty list: the value of
`last_kept_time` after the scan consumes `l`. -/
def lastKeyD (lk : Int) (l : List Entry) : Int :=
  match l.getLast? with
  | none => lk
  | some e => keyOf e

/-! ## Theorems -/

theorem digitChar_isDigit {k : Nat} (h : k ≤ 9) : (digitChar k).isDigit = true := by
  interval_cases k <;> decide

theorem digitVal_digitChar {k : Nat} (h : k ≤ 9) : digitVal (digitChar k) = k := by
  interval_cases k <;> decide

theorem digitChar_not_ws {k : Nat} (h : k ≤ 9) : (digitChar k).isWhitespace = false := by
  interval_cases k <;> decide

theorem digitChar_ne_I {k : Nat} (h : k ≤ 9) : digitChar k ≠ 'I' := by
  interval_cases k <;> decide

theorem dropWhile_eq_self_of_head {p : Char → Bool} {l : List Char}
    (h : ∀ a, l.head? = some a → p a = false) : l.dropWhile p = l := by
  cases l with
  | nil => rfl
  | cons a l => rw [List.dropWhile_cons, h a rfl]; simp

theorem stripChars_eq_self_of_ends {l : List Char}
    (h1 : ∀ a, l.head? = some a → a.isWhitespace = false)
    (h2 : ∀ a, l.getLast? = some a → a.isWhitespace = false) : stripChars l = l := by
  unfold stripChars
  rw [dropWhile_eq_self_of_head h1,
    dropWhile_eq_self_of_head (fun a ha => h2 a (by rwa [List.head?_reverse] at ha)),
    List.reverse_reverse]

theorem natChars_all_digit : ∀ n, ∀ c ∈ natChars n, c.isDigit = true := by
  intro n
  induction n using Nat.strong_induction_on with
  | _ n ih =>
    rw [natChars]
    by_cases h : n < 10
    · simp only [if_pos h, List.mem_singleton]
      rintro c rfl
      exact digitChar_isDigit (by omega)
    · simp only [if_neg h, List.mem_append, List.mem_singleton]
      rintro c (hc | rfl)
      · exact ih (n / 10) (Nat.div_lt_self (by omega) (by omega)) c hc
      · exact digitChar_isDigit (by omega)

theorem natChars_ne_nil (n : Nat) : natChars n ≠ [] := by
  rw [natChars]
  by_cases h : n < 10 <;> simp [h]

theorem natChars_all_notWS : ∀ n, ∀ c ∈ natChars n, c.isWhitespace = false := by
  intro n
  induction n using Nat.strong_induction_on with
  | _ n ih =>
    rw [natChars]
    by_cases h : n < 10
    · simp only [if_pos h, List.mem_singleton]
      rintro c rfl
      exact digitChar_not_ws (by omega)
    · simp only [if_neg h, List.mem_append, List.mem_singleton]
      rintro c (hc | rfl)
      · exact ih (n / 10) (Nat.div_lt_self (by omega) (by omega)) c hc
      · exact digitChar_not_ws (by omega)

theorem natChars_foldl : ∀ n,
    (natChars n).foldl (fun acc c => 10 * acc + digitVal c) 0 = n := by
  intro n
  induction n using Nat.strong_induction_on with
  | _ n ih =>
    rw [natChars]
    by_cases h : n < 10
    · simp only [if_pos h, List.foldl_cons, List.foldl_nil]
      rw [digitVal_digitChar (by omega)]
      omega
    · simp only [if_neg h, List.foldl_append, List.foldl_cons, List.foldl_nil]
      rw [ih (n / 10) (Nat.div_lt_self (by omega) (by omega)),
        digitVal_digitChar (by omega)]
      omega

theorem mem_of_head?_eq {α : Type _} {l : List α} {a : α} (h : l.head? = some a) :
    a ∈ l := by
  cases l with
  | nil => cases h
  | cons b t =>
    injection h with h
    exact h ▸ List.mem_cons_self b t

theorem mem_of_getLast?_eq {α : Type _} {l : List α} {a : α} (h : l.getLast? = some a) :
    a ∈ l := by
  cases l with
  | nil => cases h
  | cons b t =>
    rw [List.getLast?_eq_getLast (b :: t) (List.cons_ne_nil b t)] at h
    injection h with h
    exact h ▸ List.getLast_mem _

/-- `int(str(count)) == count`: the decimal string the tracker stores for a
play count parses back to the same number. -/
theorem intParse_strOfNat (n : Nat) : intParse (strOfNat n) = some n := by
  have htl : (strOfNat n).toList = natChars n := rfl
  have hstrip : stripChars (natChars n) = natChars n :=
    stripChars_eq_self_of_ends
      (fun a ha => natChars_all_notWS n a (mem_of_head?_eq ha))
      (fun a ha => natChars_all_notWS n a (mem_of_getLast?_eq ha))
  unfold intParse
  rw [htl, hstrip]
  rw [if_pos ⟨natChars_ne_nil n, natChars_all_digit n⟩, natChars_foldl n]

theorem removeIST_append_IST {l : List Char} (hI : 'I' ∉ l) :
    removeIST (l ++ [' ', 'I', 'S', 'T']) = l := by
  induction l with
  | nil =>
    rw [List.nil_append, removeIST]
    rw [if_pos ⟨rfl, rfl⟩]
    rw [show List.drop 3 ['I', 'S', 'T'] = ([] : List Char) from rfl, removeIST]
  | cons c l ih =>
    have hcond : ¬(c = ' ' ∧ (l ++ [' ', 'I', 'S', 'T']).take 3 = ['I', 'S', 'T']) := by
      rintro ⟨rfl, ht⟩
      rcases l with _ | ⟨a, l'⟩
      · exact absurd ht (by decide)
      · rw [List.cons_append,
          show (a :: (l' ++ [' ', 'I', 'S', 'T'])).take 3
            = a :: (l' ++ [' ', 'I', 'S', 'T']).take 2 from rfl] at ht
        injection ht with h1 _
        exact hI (h1 ▸ List.mem_cons_of_mem _ (List.mem_cons_self a l'))
    rw [List.cons_append, removeIST, if_neg hcond,
      ih (fun hm => hI (List.mem_cons_of_mem _ hm))]

theorem fmtChars_eq (d : DT) :
    fmtChars d =
      [digitChar (d.year / 100 / 10), digitChar (d.year / 100 % 10),
       digitChar (d.year % 100 / 10), digitChar (d.year % 100 % 10), '-',
       digitChar (d.month / 10), digitChar (d.month % 10), '-',
       digitChar (d.day / 10), digitChar (d.day % 10), ' ',
       digitChar (d.hour / 10), digitChar (d.hour % 10), ':',
       digitChar (d.minute / 10), digitChar (d.minute % 10), ':',
       digitChar (d.second / 10), digitChar (d.second % 10)] := rfl

theorem daysInMonth_le_31 (y m : Nat) : daysInMonth y m ≤ 31 := by
  unfold daysInMonth
  split <;> try omega
  split <;> omega

theorem fmtChars_no_I {d : DT} (hd : d.Valid) : 'I' ∉ fmtChars d := by
  obtain ⟨h1, h2, h3, h4, h5, h6, h7, h8, h9⟩ := hd
  have h31 : d.day ≤ 31 := le_trans h6 (daysInMonth_le_31 _ _)
  rw [fmtChars_eq]
  intro hm
  simp only [List.mem_cons, List.not_mem_nil, or_false] at hm
  rcases hm with h | h | h | h | h | h | h | h | h | h | h | h | h | h | h | h | h | h | h <;>
    first
      | exact absurd h.symm (digitChar_ne_I (by omega))
      | exact absurd h (by decide)

/-- `strptime(strftime(d) + ' IST')` recovers `d`: the timestamps the tracker
writes parse back to the datetime they were formatted from. -/
theorem parse_ts_fmtTS {d : DT} (hd : d.Valid) : parse_ts (fmtTS d) = some d := by
  have hd' := hd
  obtain ⟨h1, h2, h3, h4, h5, h6, h7, h8, h9⟩ := hd'
  have h31 : d.day ≤ 31 := le_trans h6 (daysInMonth_le_31 _ _)
  have htl : (fmtTS d).toList = fmtChars d ++ [' ', 'I', 'S', 'T'] := rfl
  have hhead : ∀ a, (fmtChars d).head? = some a → a.isWhitespace = false := by
    intro a ha
    rw [fmtChars_eq] at ha
    injection ha with ha
    exact ha ▸ digitChar_not_ws (by omega)
  have hlast : ∀ a, (fmtChars d).getLast? = some a → a.isWhitespace = false := by
    intro a ha
    rw [fmtChars_eq, show
      ([digitChar (d.year / 100 / 10), digitChar (d.year / 100 % 10),
        digitChar (d.year % 100 / 10), digitChar (d.year % 100 % 10), '-',
        digitChar (d.month / 10), digitChar (d.month % 10), '-',
        digitChar (d.day / 10), digitChar (d.day % 10), ' ',
        digitChar (d.hour / 10), digitChar (d.hour % 10), ':',
        digitChar (d.minute / 10), digitChar (d.minute % 10), ':',
        digitChar (d.second / 10), digitChar (d.second % 10)]).getLast?
        = some (digitChar (d.second % 10)) from rfl] at ha
    injection ha with ha
    exact ha ▸ digitChar_not_ws (by omega)
  unfold parse_ts
  rw [htl, removeIST_append_IST (fmtChars_no_I hd),
    stripChars_eq_self_of_ends hhead hlast, fmtChars_eq]
  rw [parseCore]
  rw [if_pos ⟨rfl, rfl, rfl, rfl, rfl,
    digitChar_isDigit (by omega), digitChar_isDigit (by omega),
    digitChar_isDigit (by omega), digitChar_isDigit (by omega),
    digitChar_isDigit (by omega), digitChar_isDigit (by omega),
    digitChar_isDigit (by omega), digitChar_isDigit (by omega),
    digitChar_isDigit (by omega), digitChar_isDigit (by omega),
    digitChar_isDigit (by omega), digitChar_isDigit (by omega),
    digitChar_isDigit (by omega), digitChar_isDigit (by omega)⟩]
  have ey : 1000 * digitVal (digitChar (d.year / 100 / 10))
      + 100 * digitVal (digitChar (d.year / 100 % 10))
      + 10 * digitVal (digitChar (d.year % 100 / 10))
      + digitVal (digitChar (d.year % 100 % 10)) = d.year := by
    rw [digitVal_digitChar (by omega), digitVal_digitChar (by omega),
      digitVal_digitChar (by omega), digitVal_digitChar (by omega)]
    omega
  have emo : 10 * digitVal (digitChar (d.month / 10))
      + digitVal (digitChar (d.month % 10)) = d.month := by
    rw [digitVal_digitChar (by omega), digitVal_digitChar (by omega)]; omega
  have eda : 10 * digitVal (digitChar (d.day / 10))
      + digitVal (digitChar (d.day % 10)) = d.day := by
    rw [digitVal_digitChar (by omega), digitVal_digitChar (by omega)]; omega
  have eho : 10 * digitVal (digitChar (d.hour / 10))
      + digitVal (digitChar (d.hour % 10)) = d.hour := by
    rw [digitVal_digitChar (by omega), digitVal_digitChar (by omega)]; omega
  have emi : 10 * digitVal (digitChar (d.minute / 10))
      + digitVal (digitChar (d.minute % 10)) = d.minute := by
    rw [digitVal_digitChar (by omega), digitVal_digitChar (by omega)]; omega
  have ese : 10 * digitVal (digitChar (d.second / 10))
      + digitVal (digitChar (d.second % 10)) = d.second := by
    rw [digitVal_digitChar (by omega), digitVal_digitChar (by omega)]; omega
  simp only [ey, emo, eda, eho, emi, ese]
  rw [if_pos ⟨h1, h3, h4, h5, h6, h7, h8, h9⟩]

theorem update_song_step_none (data : List Entry) (now_dt : DT) :
    update_song_step data none now_dt = (data, .fetchFailed) := rfl

theorem update_song_step_decreasing {data : List Entry} {e : Entry} {c v : Nat}
    (now_dt : DT) (hlast : data.getLast? = some e)
    (hv : intParse e.play_count = some v) (hcv : c < v) :
    update_song_step data (some c) now_dt = (data, .decreasingRejected) := by
  simp only [update_song_step, hlast, hv]
  simp [hcv]

theorem update_song_step_not_decreasing {data : List Entry} {c : Nat} {now_dt : DT}
    (hdec : ∀ e v, data.getLast? = some e → intParse e.play_count = some v → ¬c < v) :
    update_song_step data (some c) now_dt =
      (if should_append_hourly data now_dt then (data ++ [mkEntry now_dt c], .appended)
       else (data, .sameBucketSkipped)) := by
  cases hlast : data.getLast? with
  | none => simp [update_song_step, hlast]
  | some e =>
    cases hv : intParse e.play_count with
    | none => simp [update_song_step, hlast, hv]
    | some v => simp [update_song_step, hlast, hv, hdec e v hlast hv]

theorem update_song_step_empty (c : Nat) (now_dt : DT) :
    update_song_step [] (some c) now_dt = ([mkEntry now_dt c], .appended) := rfl

theorem update_song_step_appended {data : List Entry} {count : Option Nat} {now_dt : DT}
    (h : (update_song_step data count now_dt).2 = .appended) :
    ∃ c, count = some c ∧
      (update_song_step data count now_dt).1 = data ++ [mkEntry now_dt c] := by
  cases count with
  | none => cases h
  | some c =>
    refine ⟨c, rfl, ?_⟩
    unfold update_song_step at *
    by_cases hdec : (match data.getLast? with
      | none => false
      | some last =>
        match intParse last.play_count with
        | none => false
        | some v => decide (c < v)) = true
    · simp [hdec] at h
    · simp only [hdec] at *
      by_cases hap : should_append_hourly data now_dt = true
      · simp [hap]
      · simp [hap] at h

/-- C1: on a series whose last entry (if any) has a parseable timestamp and an
integer play count, `update_song` follows the §4.2 decision order: no fetched
value → reject unchanged; fetched value strictly below the last stored value →
reject unchanged; empty series → append unconditionally; same
`(year, month, day, hour)` bucket as the last sample → reject unchanged;
otherwise append `{timestamp: now, value: new value}`. -/
theorem c1_update_song_decision_order (data : List Entry) (count : Option Nat)
    (now_dt : DT) :
    (count = none → update_song_step data count now_dt = (data, .fetchFailed)) ∧
    (∀ c e v, count = some c → data.getLast? = some e →
      intParse e.play_count = some v → c < v →
      update_song_step data count now_dt = (data, .decreasingRejected)) ∧
    (∀ c, count = some c → data = [] →
      update_song_step data count now_dt = ([mkEntry now_dt c], .appended)) ∧
    (∀ c e v t, count = some c → data.getLast? = some e →
      intParse e.play_count = some v → ¬c < v → parse_ts e.timestamp = some t →
      bucket now_dt = bucket t →
      update_song_step data count now_dt = (data, .sameBucketSkipped)) ∧
    (∀ c e v t, count = some c → data.getLast? = some e →
      intParse e.play_count = some v → ¬c < v → parse_ts e.timestamp = some t →
      bucket now_dt ≠ bucket t →
      update_song_step data count now_dt = (data ++ [mkEntry now_dt c], .appended)) := by
  refine ⟨?_, ?_, ?_, ?_, ?_⟩
  · rintro rfl; rfl
  · rintro c e v rfl hlast hv hcv
    exact update_song_step_decreasing now_dt hlast hv hcv
  · rintro c rfl rfl
    rfl
  · rintro c e v t rfl hlast hv hcv hts hb
    rw [update_song_step_not_decreasing
      (fun e' v' hlast' hv' => by
        rw [hlast'] at hlast; injection hlast with hlast
        rw [hlast, hv] at hv'; injection hv' with hv'
        omega)]
    have hsa : should_append_hourly data now_dt = false := by
      unfold should_append_hourly
      rw [hlast]
      simp [hts, hb]
    rw [hsa]
    simp
  · rintro c e v t rfl hlast hv hcv hts hb
    rw [update_song_step_not_decreasing
      (fun e' v' hlast' hv' => by
        rw [hlast'] at hlast; injection hlast with hlast
        rw [hlast, hv] at hv'; injection hv' with hv'
        omega)]
    have hsa : should_append_hourly data now_dt = true := by
      unfold should_append_hourly
      rw [hlast]
      simp [hts, hb]
    rw [hsa]
    simp

/-- Witness for C1: the decreasing, same-bucket and append branches realised on
concrete stores (last sample `2024-01-01 10:00:00 IST`, value 100). -/
theorem c1_witness :
    update_song_step [⟨"2024-01-01 10:00:00 IST", "100"⟩] (some 90) ⟨2024, 1, 1, 11, 0, 0⟩
      = ([⟨"2024-01-01 10:00:00 IST", "100"⟩], .decreasingRejected) ∧
    update_song_step [⟨"2024-01-01 10:00:00 IST", "100"⟩] (some 150) ⟨2024, 1, 1, 10, 45, 0⟩
      = ([⟨"2024-01-01 10:00:00 IST", "100"⟩], .sameBucketSkipped) ∧
    update_song_step [⟨"2024-01-01 10:00:00 IST", "100"⟩] (some 150) ⟨2024, 1, 1, 11, 10, 0⟩
      = ([⟨"2024-01-01 10:00:00 IST", "100"⟩] ++ [mkEntry ⟨2024, 1, 1, 11, 10, 0⟩ 150],
         .appended) := by
  refine ⟨(c1_update_song_decision_order _ _ _).2.1 90 ⟨"2024-01-01 10:00:00 IST", "100"⟩ 100
      rfl rfl ?_ (by omega),
    (c1_update_song_decision_order _ _ _).2.2.2.1 150 ⟨"2024-01-01 10:00:00 IST", "100"⟩ 100
      ⟨2024, 1, 1, 10, 0, 0⟩ rfl rfl ?_ (by omega) ?_ (by decide),
    (c1_update_song_decision_order _ _ _).2.2.2.2 150 ⟨"2024-01-01 10:00:00 IST", "100"⟩ 100
      ⟨2024, 1, 1, 10, 0, 0⟩ rfl rfl ?_ (by omega) ?_ (by decide)⟩ <;>
    simp +decide [intParse, parse_ts, removeIST, stripChars, parseCore, digitVal, daysInMonth]

/-- C8 (the code violates the claim): `load_json` does fail soft to `[]` on a
corrupt store, but `update_song` then treats that empty list as the whole
history — the next accepted sample is saved as a fresh single-entry list,
atomically replacing (`os.replace`) whatever was in the store before.  The
previously persisted history is overwritten as a consequence of the failed
read, for every corrupt store content, fetched count and current time. -/
theorem c8_corrupt_read_overwrites (raw : String) (c : Nat) (now_dt : DT) :
    load_json (.corrupt raw) = [] ∧
    update_song_io (.corrupt raw) (some c) now_dt = .good [mkEntry now_dt c] :=
  ⟨rfl, rfl⟩

/-- C9: when the last stored entry's play count does not parse as an integer,
the `except: pass` swallows the comparison, so the decreasing-value guard is
bypassed: any fetched count — however small — is appended whenever the hourly
gate allows it. -/
theorem c9_decreasing_guard_bypassed (data : List Entry) (e : Entry) (c : Nat)
    (now_dt : DT) (hlast : data.getLast? = some e)
    (hpc : intParse e.play_count = none)
    (hhour : should_append_hourly data now_dt = true) :
    update_song_step data (some c) now_dt = (data ++ [mkEntry now_dt c], .appended) := by
  rw [update_song_step_not_decreasing
    (fun e' v' hlast' hv' => by
      rw [hlast'] at hlast; injection hlast with hlast
      rw [hlast, hpc] at hv'; cases hv'), hhour]
  simp

/-- Witness for C9: stored values 100 then a malformed `"abc"`; the fetched
count 5 is far below the previously stored 100 and is appended anyway. -/
theorem c9_witness :
    intParse "100" = some 100 ∧ 5 < 100 ∧
    update_song_step
        [⟨"2024-01-01 10:00:00 IST", "100"⟩, ⟨"2024-01-01 11:00:00 IST", "abc"⟩]
        (some 5) ⟨2024, 1, 1, 12, 30, 0⟩
      = ([⟨"2024-01-01 10:00:00 IST", "100"⟩, ⟨"2024-01-01 11:00:00 IST", "abc"⟩]
          ++ [mkEntry ⟨2024, 1, 1, 12, 30, 0⟩ 5], .appended) := by
  refine ⟨?_, by omega,
    c9_decreasing_guard_bypassed _ ⟨"2024-01-01 11:00:00 IST", "abc"⟩ 5 _ rfl ?_ ?_⟩ <;>
    simp +decide [intParse, should_append_hourly, parse_ts, removeIST, stripChars,
      parseCore, digitVal, daysInMonth]

/-- C10: a last stored timestamp that fails to parse makes
`should_append_hourly` return `True` (its `except: return True`), for every
current time — including one inside the very calendar hour the malformed
timestamp denotes — so the at-most-one-sample-per-hour cadence is disabled
rather than ingestion blocked; if the decreasing guard also passes, the new
sample is appended. -/
theorem c10_malformed_timestamp_appends (data : List Entry) (e : Entry)
    (now_dt : DT) (hlast : data.getLast? = some e)
    (hts : parse_ts e.timestamp = none) :
    should_append_hourly data now_dt = true ∧
    (∀ c v, intParse e.play_count = some v → v ≤ c →
      update_song_step data (some c) now_dt = (data ++ [mkEntry now_dt c], .appended)) := by
  have hsa : should_append_hourly data now_dt = true := by
    unfold should_append_hourly
    rw [hlast]
    simp [hts]
  refine ⟨hsa, fun c v hv hvc => ?_⟩
  rw [update_song_step_not_decreasing
    (fun e' v' hlast' hv' => by
      rw [hlast'] at hlast; injection hlast with hlast
      rw [hlast, hv] at hv'; injection hv' with hv'
      omega), hsa]
  simp

/-- Witness for C10: the malformed timestamp `"2024-01-01 10:00"` (minute
precision only) fails the fixed format, and a fetch at 10:30 — inside the same
calendar hour — is appended. -/
theorem c10_witness :
    should_append_hourly [⟨"2024-01-01 10:00", "100"⟩] ⟨2024, 1, 1, 10, 30, 0⟩ = true ∧
    update_song_step [⟨"2024-01-01 10:00", "100"⟩] (some 150) ⟨2024, 1, 1, 10, 30, 0⟩
      = ([⟨"2024-01-01 10:00", "100"⟩] ++ [mkEntry ⟨2024, 1, 1, 10, 30, 0⟩ 150],
         .appended) := by
  have h := c10_malformed_timestamp_appends [⟨"2024-01-01 10:00", "100"⟩]
    ⟨"2024-01-01 10:00", "100"⟩ ⟨2024, 1, 1, 10, 30, 0⟩ rfl
    (by simp +decide [parse_ts, removeIST, stripChars, parseCore])
  exact ⟨h.1, h.2 150 100 (by simp +decide [intParse, stripChars, digitVal]) (by omega)⟩

/-- C2 (amended): the `update_song` ingestion path of update_counts.py
preserves monotonicity — starting from a series whose play counts all parse
and are non-decreasing (as every series built by `update_song` itself is), any
fetch result leaves the series with the same property, and a fetched value
strictly below the last stored value is never appended (the series is
unchanged).  (The claim as stated, over *every* ingestion path, is refuted by
app.py's `update_play_count`, which appends any merely *different* value —
see the counterexample.) -/
theorem c2_update_song_monotone (data : List Entry) (count : Option Nat)
    (now_dt : DT) (h : ValuesMono data) :
    ValuesMono (update_song_step data count now_dt).1 ∧
    (∀ c e v, count = some c → data.getLast? = some e →
      intParse e.play_count = some v → c < v →
      (update_song_step data count now_dt).1 = data) := by
  constructor
  · cases count with
    | none => exact h
    | some c =>
      cases hlast : data.getLast? with
      | none =>
        have hnil : data = [] := List.getLast?_eq_none_iff.mp hlast
        subst hnil
        rw [update_song_step_empty]
        exact ⟨by
            rintro e he
            rw [List.mem_singleton] at he
            subst he
            rw [show (mkEntry now_dt c).play_count = strOfNat c from rfl,
              intParse_strOfNat]
            rfl,
          List.chain'_singleton _⟩
      | some e =>
        cases hv : intParse e.play_count with
        | none =>
          have := h.1 e (mem_of_getLast?_eq hlast)
          rw [hv] at this
          cases this
        | some v =>
          by_cases hcv : c < v
          · rw [update_song_step_decreasing now_dt hlast hv hcv]
            exact h
          · rw [update_song_step_not_decreasing
              (fun e' v' hl' hv' => by
                rw [hl'] at hlast; injection hlast with hlast
                rw [hlast, hv] at hv'; injection hv' with hv'
                omega)]
            by_cases hap : should_append_hourly data now_dt = true
            · rw [hap]
              simp only [if_true]
              refine ⟨?_, ?_⟩
              · rintro x hx
                rcases List.mem_append.mp hx with hx | hx
                · exact h.1 x hx
                · rw [List.mem_singleton] at hx
                  subst hx
                  rw [show (mkEntry now_dt c).play_count = strOfNat c from rfl,
                    intParse_strOfNat]
                  rfl
              · rw [List.chain'_append]
                refine ⟨h.2, List.chain'_singleton _, ?_⟩
                rintro x hx y hy
                rw [hlast] at hx
                injection hx with hx
                rw [show ([mkEntry now_dt c].head? = some (mkEntry now_dt c)) from rfl]
                  at hy
                injection hy with hy
                subst hx; subst hy
                unfold valLE
                rw [hv, show (mkEntry now_dt c).play_count = strOfNat c from rfl,
                  intParse_strOfNat]
                simp
                omega
            · simp only [Bool.not_eq_true] at hap
              rw [hap]
              simp only [Bool.false_eq_true, if_false]
              exact h
  · rintro c e v rfl hlast hv hcv
    rw [update_song_step_decreasing now_dt hlast hv hcv]

/-- Counterexample to C2 as stated: the app.py ingestion path
(`update_play_count`, which appends to the durable CSV history) appends a
fetched value 90 on top of a stored 100 — the values merely differ as strings,
so `is_new_entry` is true and the strictly smaller value enters history. -/
theorem c2_counterexample :
    update_play_count_step [⟨"2024-01-01 10:00:00 IST", "100"⟩] (some "90")
        ⟨2024, 1, 1, 11, 0, 0⟩
      = [⟨"2024-01-01 10:00:00 IST", "100"⟩, ⟨"2024-01-01 11:00:00 IST", "90"⟩] ∧
    intParse "100" = some 100 ∧ intParse "90" = some 90 ∧ 90 < 100 := by
  refine ⟨?_, ?_, ?_, by omega⟩
  · simp +decide [update_play_count_step, fmtTS, fmtChars, pad4, pad2, digitChar]
  · simp +decide [intParse, stripChars, digitVal]
  · simp +decide [intParse, stripChars, digitVal]

/-- Witness for C2: a store holding value 100 accepts 150 (still monotone) and
leaves the store unchanged when 90 arrives. -/
theorem c2_witness :
    ValuesMono (update_song_step [⟨"2024-01-01 10:00:00 IST", "100"⟩] (some 150)
      ⟨2024, 1, 1, 11, 0, 0⟩).1 ∧
    (update_song_step [⟨"2024-01-01 10:00:00 IST", "100"⟩] (some 90)
      ⟨2024, 1, 1, 11, 0, 0⟩).1 = [⟨"2024-01-01 10:00:00 IST", "100"⟩] := by
  have hmono : ValuesMono [⟨"2024-01-01 10:00:00 IST", "100"⟩] :=
    ⟨by simp +decide [intParse, stripChars, digitVal], List.chain'_singleton _⟩
  exact ⟨(c2_update_song_monotone _ _ _ hmono).1,
    (c2_update_song_monotone _ _ _ hmono).2 90 ⟨"2024-01-01 10:00:00 IST", "100"⟩ 100
      rfl rfl (by simp +decide [intParse, stripChars, digitVal]) (by omega)⟩

/-- C3 (amended): for the `update_song` path, after an accepted sample at a
valid time `t1`, a second fetch whose time lies in the same calendar-hour
bucket never yields a second stored sample (whatever its value), while a fetch
in a different hour with a non-decreasing value always yields one.  (As stated
over *every* ingestion path the claim is refuted by app.py's
`update_play_count`, which stores two samples in one hour whenever the value
changed — see the counterexample.) -/
theorem c3_update_song_bucket (data : List Entry) (c1 c2 : Nat) (t1 t2 : DT)
    (hv1 : t1.Valid)
    (h1 : (update_song_step data (some c1) t1).2 = .appended) :
    (bucket t2 = bucket t1 →
      (update_song_step (update_song_step data (some c1) t1).1 (some c2) t2).1
        = (update_song_step data (some c1) t1).1) ∧
    (bucket t2 ≠ bucket t1 → c1 ≤ c2 →
      update_song_step (update_song_step data (some c1) t1).1 (some c2) t2
        = ((update_song_step data (some c1) t1).1 ++ [mkEntry t2 c2], .appended)) := by
  obtain ⟨c, hc, hstep⟩ := update_song_step_appended h1
  injection hc with hc
  subst hc
  have hlast1 : (update_song_step data (some c1) t1).1.getLast?
      = some (mkEntry t1 c1) := by
    rw [hstep]
    exact List.getLast?_concat _
  have hpc : intParse (mkEntry t1 c1).play_count = some c1 := intParse_strOfNat c1
  have hts : parse_ts (mkEntry t1 c1).timestamp = some t1 := parse_ts_fmtTS hv1
  constructor
  · intro hb
    by_cases hc2 : c2 < c1
    · rw [update_song_step_decreasing t2 hlast1 hpc hc2]
    · rw [update_song_step_not_decreasing
        (fun e' v' hl' hv' => by
          rw [hl'] at hlast1; injection hlast1 with hlast1
          rw [hlast1, hpc] at hv'; injection hv' with hv'
          omega)]
      have hsa : should_append_hourly (update_song_step data (some c1) t1).1 t2
          = false := by
        unfold should_append_hourly
        rw [hlast1]
        simp [hts, hb]
      rw [hsa]
      simp
  · intro hb hc12
    rw [update_song_step_not_decreasing
      (fun e' v' hl' hv' => by
        rw [hl'] at hlast1; injection hlast1 with hlast1
        rw [hlast1, hpc] at hv'; injection hv' with hv'
        omega)]
    have hsa : should_append_hourly (update_song_step data (some c1) t1).1 t2
        = true := by
      unfold should_append_hourly
      rw [hlast1]
      simp [hts, hb]
    rw [hsa]
    simp

/-- Counterexample to C3 as stated: the app.py ingestion path stores two
samples inside the calendar hour 10:00–11:00 of 2024-01-01, because the value
changed between the 10:00 and 10:15 fetches. -/
theorem c3_counterexample :
    update_play_count_step [⟨"2024-01-01 10:00:00 IST", "100"⟩] (some "150")
        ⟨2024, 1, 1, 10, 15, 0⟩
      = [⟨"2024-01-01 10:00:00 IST", "100"⟩, ⟨"2024-01-01 10:15:00 IST", "150"⟩] ∧
    parse_ts "2024-01-01 10:00:00 IST" = some ⟨2024, 1, 1, 10, 0, 0⟩ ∧
    parse_ts "2024-01-01 10:15:00 IST" = some ⟨2024, 1, 1, 10, 15, 0⟩ ∧
    bucket ⟨2024, 1, 1, 10, 0, 0⟩ = bucket ⟨2024, 1, 1, 10, 15, 0⟩ := by
  refine ⟨?_, ?_, ?_, rfl⟩
  · simp +decide [update_play_count_step, fmtTS, fmtChars, pad4, pad2, digitChar]
  · simp +decide [parse_ts, removeIST, stripChars, parseCore, digitVal, daysInMonth]
  · simp +decide [parse_ts, removeIST, stripChars, parseCore, digitVal, daysInMonth]

/-- Witness for C3: the §8 end-to-end scenario — bootstrap 500 at 10:00, a
same-bucket 500 at 10:05 is not stored, 620 at 11:10 is. -/
theorem c3_witness :
    (update_song_step (update_song_step [] (some 500) ⟨2024, 1, 1, 10, 0, 0⟩).1
        (some 500) ⟨2024, 1, 1, 10, 5, 0⟩).1
      = (update_song_step [] (some 500) ⟨2024, 1, 1, 10, 0, 0⟩).1 ∧
    update_song_step (update_song_step [] (some 500) ⟨2024, 1, 1, 10, 0, 0⟩).1
        (some 620) ⟨2024, 1, 1, 11, 10, 0⟩
      = ((update_song_step [] (some 500) ⟨2024, 1, 1, 10, 0, 0⟩).1
          ++ [mkEntry ⟨2024, 1, 1, 11, 10, 0⟩ 620], .appended) :=
  ⟨(c3_update_song_bucket [] 500 500 ⟨2024, 1, 1, 10, 0, 0⟩ ⟨2024, 1, 1, 10, 5, 0⟩
      (by decide) rfl).1 (by decide),
   (c3_update_song_bucket [] 500 620 ⟨2024, 1, 1, 10, 0, 0⟩ ⟨2024, 1, 1, 11, 10, 0⟩
      (by decide) rfl).2 (by decide) (by omega)⟩

theorem findRefAux_eq_none (l : List Entry) (target : Int) :
    ∀ best, (findRefAux l target best = none ↔
      best = none ∧ ∀ e ∈ l, parse_ts e.timestamp = none) := by
  induction l with
  | nil =>
    intro best
    cases best with
    | none => simp [findRefAux]
    | some b => simp [findRefAux]
  | cons e rest ih =>
    intro best
    cases hp : parse_ts e.timestamp with
    | none =>
      simp only [findRefAux, hp]
      rw [ih best]
      simp [List.forall_mem_cons, hp]
    | some t =>
      simp only [findRefAux, hp]
      cases best with
      | none =>
        rw [ih]
        simp [List.forall_mem_cons, hp]
      | some b =>
        by_cases hlt : |(toSecs t : Int) - target| < b.2
        · simp only [if_pos hlt]
          rw [ih]
          simp [List.forall_mem_cons, hp]
        · simp only [if_neg hlt]
          rw [ih]
          simp [List.forall_mem_cons, hp]

theorem findRefAux_some_spec (l : List Entry) (target : Int) :
    ∀ best r, findRefAux l target best = some r →
      (∃ b, best = some b ∧ r = b.1 ∧
        ∀ e ∈ l, ∀ u, parse_ts e.timestamp = some u →
          b.2 ≤ |(toSecs u : Int) - target|) ∨
      (∃ t l1 l2, parse_ts r.timestamp = some t ∧ l = l1 ++ r :: l2 ∧
        (∀ b, best = some b → |(toSecs t : Int) - target| < b.2) ∧
        (∀ e ∈ l1, ∀ u, parse_ts e.timestamp = some u →
          |(toSecs t : Int) - target| < |(toSecs u : Int) - target|) ∧
        (∀ e ∈ l2, ∀ u, parse_ts e.timestamp = some u →
          |(toSecs t : Int) - target| ≤ |(toSecs u : Int) - target|)) := by
  induction l with
  | nil =>
    intro best r hr
    cases best with
    | none => cases hr
    | some b =>
      injection hr with hr
      exact Or.inl ⟨b, rfl, hr.symm, by simp⟩
  | cons e rest ih =>
    intro best r hr
    cases hp : parse_ts e.timestamp with
    | none =>
      simp only [findRefAux, hp] at hr
      rcases ih best r hr with ⟨b, hb, hrb, hall⟩ |
        ⟨t1, l1, l2, hpr, hsplit, hbound, hbefore, hafter⟩
      · refine Or.inl ⟨b, hb, hrb, ?_⟩
        rintro e1 he1 u hu
        rcases List.mem_cons.mp he1 with h1 | h1
        · rw [h1, hp] at hu; cases hu
        · exact hall e1 h1 u hu
      · refine Or.inr ⟨t1, e :: l1, l2, hpr, ?_, ?_, ?_, ?_⟩
        · rw [hsplit, List.cons_append]
        · exact hbound
        · rintro e1 he1 u hu
          rcases List.mem_cons.mp he1 with h1 | h1
          · rw [h1, hp] at hu; cases hu
          · exact hbefore e1 h1 u hu
        · exact hafter
    | some t =>
      cases best with
      | none =>
        simp only [findRefAux, hp] at hr
        rcases ih (some (e, |(toSecs t : Int) - target|)) r hr with
          ⟨b, hb, hrb, hall⟩ | ⟨t1, l1, l2, hpr, hsplit, hbound, hbefore, hafter⟩
        · injection hb with hb
          refine Or.inr ⟨t, [], rest, ?_, ?_, ?_, ?_, ?_⟩
          · rw [hrb, ← hb]; exact hp
          · rw [hrb, ← hb]; rfl
          · rintro bb hbb; cases hbb
          · simp
          · intro e1 he1 u hu
            have := hall e1 he1 u hu
            rw [← hb] at this
            exact this
        · have hlt : |(toSecs t1 : Int) - target| < |(toSecs t : Int) - target| :=
            hbound (e, |(toSecs t : Int) - target|) rfl
          refine Or.inr ⟨t1, e :: l1, l2, hpr, ?_, ?_, ?_, ?_⟩
          · rw [hsplit, List.cons_append]
          · rintro bb hbb; cases hbb
          · rintro e1 he1 u hu
            rcases List.mem_cons.mp he1 with h1 | h1
            · rw [h1, hp] at hu
              cases hu
              exact hlt
            · exact hbefore e1 h1 u hu
          · exact hafter
      | some b =>
        simp only [findRefAux, hp] at hr
        by_cases hdlt : |(toSecs t : Int) - target| < b.2
        · rw [if_pos hdlt] at hr
          rcases ih (some (e, |(toSecs t : Int) - target|)) r hr with
            ⟨b1, hb1, hrb, hall⟩ | ⟨t1, l1, l2, hpr, hsplit, hbound, hbefore, hafter⟩
          · injection hb1 with hb1
            refine Or.inr ⟨t, [], rest, ?_, ?_, ?_, ?_, ?_⟩
            · rw [hrb, ← hb1]; exact hp
            · rw [hrb, ← hb1]; rfl
            · rintro bb hbb
              cases hbb
              exact hdlt
            · simp
            · intro e1 he1 u hu
              have := hall e1 he1 u hu
              rw [← hb1] at this
              exact this
          · have hlt : |(toSecs t1 : Int) - target| < |(toSecs t : Int) - target| :=
              hbound (e, |(toSecs t : Int) - target|) rfl
            refine Or.inr ⟨t1, e :: l1, l2, hpr, ?_, ?_, ?_, ?_⟩
            · rw [hsplit, List.cons_append]
            · rintro bb hbb
              cases hbb
              exact lt_trans hlt hdlt
            · rintro e1 he1 u hu
              rcases List.mem_cons.mp he1 with h1 | h1
              · rw [h1, hp] at hu
                cases hu
                exact hlt
              · exact hbefore e1 h1 u hu
            · exact hafter
        · rw [if_neg hdlt] at hr
          rcases ih (some b) r hr with
            ⟨b1, hb1, hrb, hall⟩ | ⟨t1, l1, l2, hpr, hsplit, hbound, hbefore, hafter⟩
          · injection hb1 with hb1
            refine Or.inl ⟨b, rfl, ?_, ?_⟩
            · rw [hrb, ← hb1]
            · rintro e1 he1 u hu
              rcases List.mem_cons.mp he1 with h1 | h1
              · rw [h1, hp] at hu
                cases hu
                exact not_lt.mp hdlt
              · have := hall e1 h1 u hu
                rw [← hb1] at this
                exact this
          · have hlt : |(toSecs t1 : Int) - target| < b.2 := hbound b rfl
            refine Or.inr ⟨t1, e :: l1, l2, hpr, ?_, ?_, ?_, ?_⟩
            · rw [hsplit, List.cons_append]
            · rintro bb hbb
              cases hbb
              exact hlt
            · rintro e1 he1 u hu
              rcases List.mem_cons.mp he1 with h1 | h1
              · rw [h1, hp] at hu
                cases hu
                exact lt_of_lt_of_le hlt (not_lt.mp hdlt)
              · exact hbefore e1 h1 u hu
            · exact hafter

/-- C6: `find_reference` returns the first-encountered entry minimising the
absolute distance of its parsed timestamp to `now − hours_back` (strictly
closer than every parseable entry before it, at least as close as every one
after it); unparseable entries are never selected, and the result is `none`
exactly when no entry's timestamp parses. -/
theorem c6_find_reference_nearest (entries : List Entry) (nowSecs : Int) (hb : Nat) :
    (find_reference entries nowSecs hb = none ↔
      ∀ e ∈ entries, parse_ts e.timestamp = none) ∧
    (∀ r, find_reference entries nowSecs hb = some r →
      IsFirstMin entries (nowSecs - (hb : Int) * 3600) r) := by
  constructor
  · rw [find_reference, findRefAux_eq_none]
    simp
  · intro r hr
    rcases findRefAux_some_spec entries (nowSecs - (hb : Int) * 3600) none r hr with
      ⟨b, hb, _⟩ | ⟨t, l1, l2, hpr, hsplit, _, hbefore, hafter⟩
    · cases hb
    · exact ⟨t, l1, l2, hpr, hsplit, hbefore, hafter⟩

/-- Witness for C6: samples at minute offsets 0, 30, 65, 130 (10:00, 10:30,
11:05, 12:10); with `now` at the latest sample and a 1-hour look-back the
target is 11:10, and the offset-65 sample (11:05) is selected. -/
theorem c6_witness :
    IsFirstMin
      [⟨"2024-01-01 10:00:00 IST", "100"⟩, ⟨"2024-01-01 10:30:00 IST", "200"⟩,
       ⟨"2024-01-01 11:05:00 IST", "300"⟩, ⟨"2024-01-01 12:10:00 IST", "400"⟩]
      ((toSecs ⟨2024, 1, 1, 12, 10, 0⟩ : Int) - (1 : Nat) * 3600)
      ⟨"2024-01-01 11:05:00 IST", "300"⟩ :=
  (c6_find_reference_nearest
    [⟨"2024-01-01 10:00:00 IST", "100"⟩, ⟨"2024-01-01 10:30:00 IST", "200"⟩,
     ⟨"2024-01-01 11:05:00 IST", "300"⟩, ⟨"2024-01-01 12:10:00 IST", "400"⟩]
    (toSecs ⟨2024, 1, 1, 12, 10, 0⟩ : Int) 1).2
    ⟨"2024-01-01 11:05:00 IST", "300"⟩
    (by simp +decide [find_reference, findRefAux, parse_ts, removeIST, stripChars,
      parseCore, digitVal, daysInMonth, toSecs, daysBeforeYear, daysBeforeMonth])

theorem find_reference_singleton (e : Entry) (t : DT) (nowSecs : Int) (hb : Nat)
    (hp : parse_ts e.timestamp = some t) :
    find_reference [e] nowSecs hb = some e := by
  simp [find_reference, findRefAux, hp]

theorem find_reference_singleton_none (e : Entry) (nowSecs : Int) (hb : Nat)
    (hp : parse_ts e.timestamp = none) :
    find_reference [e] nowSecs hb = none := by
  simp [find_reference, findRefAux, hp]

/-- C7 (amended): for a single-sample series whose play count parses,
`build_summary` does *not* signal the hour/day increases as unavailable: it
returns the numeric `0` for both (the only sample serves as its own
reference), presented exactly like a real measurement.  The increases are
`None` only when the sample's timestamp fails to parse, so no reference
exists. -/
theorem c7_single_sample_summary (e : Entry) (nowSecs : Int) (c : Nat)
    (hc : intParse e.play_count = some c) :
    (∀ t, parse_ts e.timestamp = some t →
      summary_for_song [e] nowSecs = some ⟨c, some c, some 0, some c, some 0, 1⟩) ∧
    (parse_ts e.timestamp = none →
      summary_for_song [e] nowSecs = some ⟨c, none, none, none, none, 1⟩) := by
  constructor
  · intro t ht
    have h1 : find_reference [e] nowSecs 1 = some e :=
      find_reference_singleton e t nowSecs 1 ht
    have h24 : find_reference [e] nowSecs 24 = some e :=
      find_reference_singleton e t nowSecs 24 ht
    unfold summary_for_song
    simp only [show ([e].getLast? = some e) from rfl, hc, h1, h24]
    simp
  · intro ht
    have h1 : find_reference [e] nowSecs 1 = none :=
      find_reference_singleton_none e nowSecs 1 ht
    have h24 : find_reference [e] nowSecs 24 = none :=
      find_reference_singleton_none e nowSecs 24 ht
    unfold summary_for_song
    simp only [show ([e].getLast? = some e) from rfl, hc, h1, h24]
    rfl

/-- Counterexample to C7 as stated: the single-sample series with value 500
yields the numeric `hour_increase = 0` and `day_increase = 0` in the summary
artifact — not an omitted or "unavailable" marker. -/
theorem c7_counterexample :
    summary_for_song [⟨"2024-01-01 10:00:00 IST", "500"⟩]
        (toSecs ⟨2024, 1, 3, 12, 0, 0⟩ : Int)
      = some ⟨500, some 500, some 0, some 500, some 0, 1⟩ ∧
    some (0 : Int) ≠ (none : Option Int) := by
  refine ⟨?_, by decide⟩
  simp +decide [summary_for_song, find_reference, findRefAux, parse_ts, removeIST,
    stripChars, parseCore, digitVal, daysInMonth, intParse, toSecs, daysBeforeYear,
    daysBeforeMonth]

/-- Witness for C7: both branches realised — a parseable single sample gives
numeric zero increases; a malformed timestamp gives the `None` markers. -/
theorem c7_witness :
    summary_for_song [⟨"2024-01-01 10:00:00 IST", "500"⟩] 0
      = some ⟨500, some 500, some 0, some 500, some 0, 1⟩ ∧
    summary_for_song [⟨"garbage", "500"⟩] 0
      = some ⟨500, none, none, none, none, 1⟩ :=
  ⟨(c7_single_sample_summary ⟨"2024-01-01 10:00:00 IST", "500"⟩ 0 500
      (by simp +decide [intParse, stripChars, digitVal])).1 ⟨2024, 1, 1, 10, 0, 0⟩
      (by simp +decide [parse_ts, removeIST, stripChars, parseCore, digitVal,
        daysInMonth]),
   (c7_single_sample_summary ⟨"garbage", "500"⟩ 0 500
      (by simp +decide [intParse, stripChars, digitVal])).2
      (by simp +decide [parse_ts, removeIST, stripChars, parseCore])⟩

theorem scanKeep_sublist (g : Int) :
    ∀ (l : List Entry) (s : Option Int), List.Sublist (scanKeep g l s) l := by
  intro l
  induction l with
  | nil => intro s; cases s <;> simp [scanKeep]
  | cons e rest ih =>
    intro s
    cases s with
    | none => exact (ih (some (keyOf e))).cons₂ e
    | some lk =>
      by_cases h : keyOf e - lk ≥ (g - 5) * 60
      · simp only [scanKeep, if_pos h]
        exact (ih (some (keyOf e))).cons₂ e
      · simp only [scanKeep, if_neg h]
        exact (ih (some lk)).cons e

theorem scanKeep_chainFrom (g : Int) :
    ∀ (l : List Entry) (lk : Int),
      ChainFrom ((g - 5) * 60) lk (scanKeep g l (some lk)) := by
  intro l
  induction l with
  | nil => intro lk; trivial
  | cons e rest ih =>
    intro lk
    by_cases h : keyOf e - lk ≥ (g - 5) * 60
    · simp only [scanKeep, if_pos h]
      exact ⟨h, ih (keyOf e)⟩
    · simp only [scanKeep, if_neg h]
      exact ih lk

theorem chainFrom_scanKeep_id (g : Int) :
    ∀ (l : List Entry) (lk : Int),
      ChainFrom ((g - 5) * 60) lk l → scanKeep g l (some lk) = l := by
  intro l
  induction l with
  | nil => intro lk _; rfl
  | cons e rest ih =>
    intro lk h
    obtain ⟨h1, h2⟩ := h
    have h1g : keyOf e - lk ≥ (g - 5) * 60 := h1
    simp only [scanKeep, if_pos h1g]
    rw [ih (keyOf e) h2]

theorem lastKeyD_cons (lk : Int) (e : Entry) (l : List Entry) :
    lastKeyD lk (e :: l) = lastKeyD (keyOf e) l := by
  cases l with
  | nil => rfl
  | cons b t =>
    cases hbt : (b :: t).getLast? with
    | none => exact absurd hbt (by simp)
    | some x =>
      unfold lastKeyD
      rw [List.getLast?_cons_cons, hbt]

theorem scanKeep_chain_append (g : Int) :
    ∀ (l m : List Entry) (lk : Int), ChainFrom ((g - 5) * 60) lk l →
      scanKeep g (l ++ m) (some lk) = l ++ scanKeep g m (some (lastKeyD lk l)) := by
  intro l
  induction l with
  | nil => intro m lk _; simp [lastKeyD]
  | cons e rest ih =>
    intro m lk h
    obtain ⟨h1, h2⟩ := h
    have h1g : keyOf e - lk ≥ (g - 5) * 60 := h1
    have hred : scanKeep g ((e :: rest) ++ m) (some lk)
        = e :: scanKeep g (rest ++ m) (some (keyOf e)) := by
      rw [List.cons_append, scanKeep, if_pos h1g]
    rw [hred, ih m (keyOf e) h2, lastKeyD_cons]
    rfl

theorem scanKeep_getLast (g : Int) :
    ∀ (l : List Entry) (lk : Int) (e : Entry), l.getLast? = some e →
      (scanKeep g l (some lk) = [] → keyOf e - lk < (g - 5) * 60) ∧
      (∀ f, (scanKeep g l (some lk)).getLast? = some f →
        f = e ∨ keyOf e - keyOf f < (g - 5) * 60) := by
  intro l
  induction l with
  | nil => intro lk e h; cases h
  | cons a rest ih =>
    intro lk e h
    cases rest with
    | nil =>
      have ha : a = e := Option.some.inj h
      subst ha
      constructor
      · intro hempty
        by_cases hc : keyOf a - lk ≥ (g - 5) * 60
        · simp only [scanKeep, if_pos hc] at hempty
          cases hempty
        · omega
      · intro f hf
        by_cases hc : keyOf a - lk ≥ (g - 5) * 60
        · simp only [scanKeep, if_pos hc] at hf
          exact Or.inl (Option.some.inj hf).symm
        · simp only [scanKeep, if_neg hc] at hf
          cases hf
    | cons b t =>
      have h' : (b :: t).getLast? = some e := by
        rw [List.getLast?_cons_cons] at h
        exact h
      by_cases hc : keyOf a - lk ≥ (g - 5) * 60
      · have hred : scanKeep g (a :: b :: t) (some lk)
            = a :: scanKeep g (b :: t) (some (keyOf a)) := by
          rw [scanKeep, if_pos hc]
        rw [hred]
        have IH := ih (keyOf a) e h'
        constructor
        · intro hemp; cases hemp
        · intro f hf
          cases hscan : scanKeep g (b :: t) (some (keyOf a)) with
          | nil =>
            rw [hscan] at hf
            have hfa : a = f := Option.some.inj hf
            exact Or.inr (hfa ▸ IH.1 hscan)
          | cons c cs =>
            rw [hscan, List.getLast?_cons_cons] at hf
            exact IH.2 f (by rw [hscan]; exact hf)
      · have hred : scanKeep g (a :: b :: t) (some lk)
            = scanKeep g (b :: t) (some lk) := by
          rw [scanKeep, if_neg hc]
        rw [hred]
        exact ih lk e h'

theorem sortByTS_pairwise (l : List Entry) : (sortByTS l).Pairwise tsLE :=
  List.sorted_insertionSort tsLE l

theorem sortByTS_perm (l : List Entry) : (sortByTS l).Perm l :=
  List.perm_insertionSort tsLE l

theorem sortByTS_of_pairwise {l : List Entry} (h : l.Pairwise tsLE) :
    sortByTS l = l :=
  List.Sorted.insertionSort_eq h

theorem pairwise_tsLE_getLast :
    ∀ (l : List Entry), l.Pairwise tsLE →
      ∀ x ∈ l, ∀ s, l.getLast? = some s → tsLE x s := by
  intro l
  induction l with
  | nil => intro _ x hx; cases hx
  | cons a rest ih =>
    intro hp x hx s hs
    cases rest with
    | nil =>
      rw [List.mem_singleton] at hx
      subst hx
      have hsa : x = s := Option.some.inj hs
      subst hsa
      exact le_refl (keyOf x)
    | cons b t =>
      rw [List.getLast?_cons_cons] at hs
      rcases List.mem_cons.mp hx with h1 | h1
      · subst h1
        exact (List.pairwise_cons.mp hp).1 s (mem_of_getLast?_eq hs)
      · exact ih (List.pairwise_cons.mp hp).2 x h1 s hs

theorem pairwise_ne_inj :
    ∀ (l : List Entry), l.Pairwise (fun a b => keyOf a ≠ keyOf b) →
      ∀ x ∈ l, ∀ y ∈ l, keyOf x = keyOf y → x = y := by
  intro l
  induction l with
  | nil => intro _ x hx; cases hx
  | cons a rest ih =>
    intro hp x hx y hy hxy
    have hhead := (List.pairwise_cons.mp hp).1
    have htail := (List.pairwise_cons.mp hp).2
    rcases List.mem_cons.mp hx with h1 | h1 <;> rcases List.mem_cons.mp hy with h2 | h2
    · rw [h1, h2]
    · subst h1; exact absurd hxy (hhead y h2)
    · subst h2; exact absurd hxy.symm (hhead x h1)
    · exact ih htail x h1 y h2 hxy

theorem chainFrom_cons_chain' (T : Int) :
    ∀ (l : List Entry) (e : Entry), ChainFrom T (keyOf e) l →
      (e :: l).Chain' (fun a b => T ≤ keyOf b - keyOf a) := by
  intro l
  induction l with
  | nil => intro e _; simp
  | cons f t ih =>
    intro e h
    obtain ⟨h1, h2⟩ := h
    rw [List.chain'_cons]
    exact ⟨h1, ih f h2⟩

theorem chainFrom_chain' (T lk : Int) (l : List Entry) (h : ChainFrom T lk l) :
    l.Chain' (fun a b => T ≤ keyOf b - keyOf a) := by
  cases l with
  | nil => simp
  | cons e t =>
    obtain ⟨h1, h2⟩ := h
    exact chainFrom_cons_chain' T t e h2

theorem scanKeep_chain' (g : Int) (l : List Entry) (s : Option Int) :
    (scanKeep g l s).Chain' (fun a b => (g - 5) * 60 ≤ keyOf b - keyOf a) := by
  cases s with
  | some lk => exact chainFrom_chain' _ lk _ (scanKeep_chainFrom g l lk)
  | none =>
    cases l with
    | nil => simp [scanKeep]
    | cons e rest =>
      rw [show scanKeep g (e :: rest) none
        = e :: scanKeep g rest (some (keyOf e)) from rfl]
      exact chainFrom_cons_chain' _ _ e (scanKeep_chainFrom g rest (keyOf e))

theorem forceLast_subset {filtered sorted : List Entry}
    (hsub : ∀ x ∈ filtered, x ∈ sorted) :
    ∀ x ∈ forceLast filtered sorted, x ∈ sorted := by
  intro x hx
  cases hk : filtered.getLast? with
  | none =>
    cases hs : sorted.getLast? with
    | none => simp only [forceLast, hk, hs] at hx; exact hsub x hx
    | some s => simp only [forceLast, hk, hs] at hx; exact hsub x hx
  | some f =>
    cases hs : sorted.getLast? with
    | none => simp only [forceLast, hk, hs] at hx; exact hsub x hx
    | some s =>
      simp only [forceLast, hk, hs] at hx
      by_cases hts : f.timestamp ≠ s.timestamp
      · rw [if_pos hts] at hx
        rcases List.mem_append.mp hx with h1 | h1
        · exact hsub x h1
        · rw [List.mem_singleton] at h1
          subst h1
          exact mem_of_getLast?_eq hs
      · rw [if_neg hts] at hx
        exact hsub x hx

theorem filter_hour_gaps_eq {entries : List Entry} {g : Int} {out : List Entry}
    (h : filter_hour_gaps entries g = some out) (hne : entries ≠ []) :
    entries.all (fun e => (parse_ts e.timestamp).isSome) = true ∧
    out = forceLast (scanKeep g (sortByTS entries) none) (sortByTS entries) := by
  unfold filter_hour_gaps at h
  rw [if_neg (by simpa using hne)] at h
  by_cases hall : entries.all (fun e => (parse_ts e.timestamp).isSome) = true
  · rw [if_pos hall] at h
    exact ⟨hall, (Option.some.inj h).symm⟩
  · rw [if_neg hall] at h
    cases h

theorem all_parse_of_subset {l m : List Entry}
    (hall : m.all (fun e => (parse_ts e.timestamp).isSome) = true)
    (hsub : ∀ x ∈ l, x ∈ m) :
    l.all (fun e => (parse_ts e.timestamp).isSome) = true := by
  rw [List.all_eq_true] at *
  exact fun e he => hall e (hsub e he)

/-- Core facts about one run of `filter_hour_gaps` on a non-empty
all-parseable series: the output keeps the first sorted sample, stays inside
the sorted input, ends with the last sorted sample up to timestamp-string
equality, and is a fixed point of the filter. -/
theorem gapFilter_main (entries : List Entry) (g : Int) (out : List Entry)
    (h : filter_hour_gaps entries g = some out) (hne : entries ≠ []) :
    out.head? = (sortByTS entries).head? ∧
    (∀ x ∈ out, x ∈ sortByTS entries) ∧
    (∀ fs, (sortByTS entries).getLast? = some fs →
      out.getLast? = some fs ∨
      ∃ fk, out.getLast? = some fk ∧ fk ∈ sortByTS entries ∧
        fk.timestamp = fs.timestamp) ∧
    filter_hour_gaps out g = some out := by
  obtain ⟨hall, hout⟩ := filter_hour_gaps_eq h hne
  have hsp : (sortByTS entries).Pairwise tsLE := sortByTS_pairwise entries
  have hsne : sortByTS entries ≠ [] := by
    intro h0
    have hperm := sortByTS_perm entries
    rw [h0] at hperm
    exact hne (List.Perm.eq_nil hperm.symm)
  obtain ⟨e0, srest, hs0⟩ : ∃ e0 srest, sortByTS entries = e0 :: srest := by
    cases hsq : sortByTS entries with
    | nil => exact absurd hsq hsne
    | cons a b => exact ⟨a, b, rfl⟩
  have hkeq : scanKeep g (sortByTS entries) none
      = e0 :: scanKeep g srest (some (keyOf e0)) := by
    rw [hs0, scanKeep]
  have hchain : ChainFrom ((g - 5) * 60) (keyOf e0)
      (scanKeep g srest (some (keyOf e0))) := scanKeep_chainFrom g srest (keyOf e0)
  have hksub : ∀ x ∈ scanKeep g (sortByTS entries) none, x ∈ sortByTS entries :=
    fun x hx => (scanKeep_sublist g (sortByTS entries) none).subset hx
  have hkp : (scanKeep g (sortByTS entries) none).Pairwise tsLE :=
    List.Pairwise.sublist (scanKeep_sublist g (sortByTS entries) none) hsp
  have hkne : scanKeep g (sortByTS entries) none ≠ [] := by
    rw [hkeq]
    exact List.cons_ne_nil _ _
  obtain ⟨fk, hfk⟩ : ∃ fk, (scanKeep g (sortByTS entries) none).getLast? = some fk := by
    cases hq : (scanKeep g (sortByTS entries) none).getLast? with
    | none => exact absurd (List.getLast?_eq_none_iff.mp hq) hkne
    | some f => exact ⟨f, rfl⟩
  obtain ⟨fs, hfs⟩ : ∃ fs, (sortByTS entries).getLast? = some fs := by
    cases hq : (sortByTS entries).getLast? with
    | none => exact absurd (List.getLast?_eq_none_iff.mp hq) hsne
    | some f => exact ⟨f, rfl⟩
  have hfkmem : fk ∈ sortByTS entries := hksub fk (mem_of_getLast?_eq hfk)
  have hforce : forceLast (scanKeep g (sortByTS entries) none) (sortByTS entries)
      = if fk.timestamp ≠ fs.timestamp
        then scanKeep g (sortByTS entries) none ++ [fs]
        else scanKeep g (sortByTS entries) none := by
    simp only [forceLast, hfk, hfs]
  have hosub : ∀ x ∈ out, x ∈ sortByTS entries := by
    rw [hout]
    exact forceLast_subset hksub
  have hallout : out.all (fun e => (parse_ts e.timestamp).isSome) = true := by
    refine all_parse_of_subset hall ?_
    intro x hx
    exact (sortByTS_perm entries).mem_iff.mp (hosub x hx)
  by_cases hts : fk.timestamp ≠ fs.timestamp
  · -- force-append case
    have houtv : out = scanKeep g (sortByTS entries) none ++ [fs] := by
      rw [hout, hforce, if_pos hts]
    have hone : out ≠ [] := by
      rw [houtv]
      simp
    have hop : out.Pairwise tsLE := by
      rw [houtv, List.pairwise_append]
      refine ⟨hkp, List.pairwise_singleton _ _, ?_⟩
      intro x hx y hy
      rw [List.mem_singleton] at hy
      rw [hy]
      exact pairwise_tsLE_getLast _ hsp x (hksub x hx) fs hfs
    have hohead : out.head? = (sortByTS entries).head? := by
      rw [houtv, hkeq, hs0]
      rfl
    have holast : out.getLast? = some fs := by
      rw [houtv]
      exact List.getLast?_concat _
    have hsrne : srest ≠ [] := by
      intro h0
      subst h0
      rw [hs0] at hfs
      have hfse : fs = e0 := (Option.some.inj hfs).symm
      have hfk2 := hfk
      rw [hkeq] at hfk2
      have hfke : fk = e0 := (Option.some.inj hfk2).symm
      exact hts (by rw [hfke, hfse])
    have hsrlast : srest.getLast? = some fs := by
      rw [hs0] at hfs
      cases srest with
      | nil => exact absurd rfl hsrne
      | cons b t =>
        rw [List.getLast?_cons_cons] at hfs
        exact hfs
    have hSL := scanKeep_getLast g srest (keyOf e0) fs hsrlast
    have hbound : keyOf fs
        - lastKeyD (keyOf e0) (scanKeep g srest (some (keyOf e0))) < (g - 5) * 60 := by
      cases hkr : scanKeep g srest (some (keyOf e0)) with
      | nil =>
        exact hSL.1 hkr
      | cons c cs =>
        have hfk2 := hfk
        rw [hkeq, hkr, List.getLast?_cons_cons] at hfk2
        rcases hSL.2 fk (by rw [hkr]; exact hfk2) with hfe | hlt
        · exact absurd (congrArg Entry.timestamp hfe) hts
        · rw [show lastKeyD (keyOf e0) (c :: cs) = keyOf fk from by
            simp [lastKeyD, hfk2]]
          exact hlt
    have hscan2 : scanKeep g out none = scanKeep g (sortByTS entries) none := by
      rw [houtv, hkeq, List.cons_append, scanKeep,
        scanKeep_chain_append g _ _ _ hchain]
      rw [show scanKeep g [fs]
          (some (lastKeyD (keyOf e0) (scanKeep g srest (some (keyOf e0))))) = [] from by
        rw [scanKeep, if_neg (by omega), scanKeep]]
      rw [List.append_nil]
    have hforce2 : forceLast (scanKeep g (sortByTS entries) none) out = out := by
      simp only [forceLast, hfk, holast, if_pos hts]
      rw [← houtv]
    refine ⟨hohead, hosub, ?_, ?_⟩
    · intro fs2 hfs2
      rw [hfs] at hfs2
      rw [← Option.some.inj hfs2]
      exact Or.inl holast
    · unfold filter_hour_gaps
      rw [if_neg (by simpa using hone), if_pos hallout]
      show some (forceLast (scanKeep g (sortByTS out) none) (sortByTS out)) = some out
      rw [sortByTS_of_pairwise hop, hscan2, hforce2]
  · -- no force-append: the last kept sample already bears the last timestamp
    have hts' : fk.timestamp = fs.timestamp := not_not.mp hts
    have houtv : out = scanKeep g (sortByTS entries) none := by
      rw [hout, hforce, if_neg hts]
    have hone : out ≠ [] := by
      rw [houtv]
      exact hkne
    have hop : out.Pairwise tsLE := by
      rw [houtv]
      exact hkp
    have hohead : out.head? = (sortByTS entries).head? := by
      rw [houtv, hkeq, hs0]
      rfl
    have holast : out.getLast? = some fk := by
      rw [houtv]
      exact hfk
    have hscan2 : scanKeep g out none = out := by
      rw [houtv, hkeq, scanKeep, chainFrom_scanKeep_id g _ _ hchain]
    have hforce2 : forceLast out out = out := by
      simp only [forceLast, holast]
      rw [if_neg (by simp)]
    refine ⟨hohead, hosub, ?_, ?_⟩
    · intro fs2 hfs2
      rw [hfs] at hfs2
      rw [← Option.some.inj hfs2]
      exact Or.inr ⟨fk, holast, hfkmem, hts'⟩
    · unfold filter_hour_gaps
      rw [if_neg (by simpa using hone), if_pos hallout]
      show some (forceLast (scanKeep g (sortByTS out) none) (sortByTS out)) = some out
      rw [sortByTS_of_pairwise hop, hscan2, hforce2]

/-- C5: `filter_hour_gaps` is idempotent — applied to its own output it
returns that output unchanged, for every series it accepts (the claim's
"series of entries with parseable timestamps": on other series the Python
call raises, modelled as `none`). -/
theorem c5_gap_filter_idempotent (entries : List Entry) (g : Int) (out : List Entry)
    (h : filter_hour_gaps entries g = some out) :
    filter_hour_gaps out g = some out := by
  by_cases hne : entries = []
  · subst hne
    have h0 : filter_hour_gaps ([] : List Entry) g = some [] := rfl
    rw [h0] at h
    rw [← Option.some.inj h]
    exact h0
  · exact (gapFilter_main entries g out h hne).2.2.2

/-- Witness for C5: three samples at 11:05, 10:00, 10:30; the filter sorts,
keeps 10:00, drops 10:30 (30 min < 55), keeps 11:05 (65 min), and a second
run returns the same two samples. -/
theorem c5_witness :
    filter_hour_gaps [⟨"2024-01-01 11:05:00", "300"⟩, ⟨"2024-01-01 10:00:00", "100"⟩,
        ⟨"2024-01-01 10:30:00", "200"⟩] 60
      = some [⟨"2024-01-01 10:00:00", "100"⟩, ⟨"2024-01-01 11:05:00", "300"⟩] ∧
    filter_hour_gaps [⟨"2024-01-01 10:00:00", "100"⟩, ⟨"2024-01-01 11:05:00", "300"⟩] 60
      = some [⟨"2024-01-01 10:00:00", "100"⟩, ⟨"2024-01-01 11:05:00", "300"⟩] := by
  have hconc : filter_hour_gaps [⟨"2024-01-01 11:05:00", "300"⟩,
      ⟨"2024-01-01 10:00:00", "100"⟩, ⟨"2024-01-01 10:30:00", "200"⟩] 60
      = some [⟨"2024-01-01 10:00:00", "100"⟩, ⟨"2024-01-01 11:05:00", "300"⟩] := by
    simp +decide [filter_hour_gaps, sortByTS, List.insertionSort, List.orderedInsert,
      scanKeep, forceLast, keyOf, parse_ts, removeIST, stripChars, parseCore, digitVal,
      daysInMonth, tsLE, toSecs, daysBeforeYear, daysBeforeMonth]
  exact ⟨hconc, c5_gap_filter_idempotent _ _ _ hconc⟩

/-- C4 (amended): `filter_hour_gaps` sorts by parsed timestamp (stable),
always keeps the first sorted sample (the output begins with it), keeps each
subsequent sample exactly when ≥ `gap_minutes − 5` minutes have elapsed since
the last kept sample (the kept scan is chained at that spacing), and
force-appends the final sorted sample when its *timestamp string* differs
from the last kept one's.  Consequently, for a series whose parsed timestamps
are pairwise distinct the output also ends with the last (newest) sample.
(As stated — unconditionally containing the last sample — the claim fails on
duplicate timestamps: see the counterexample, where the final sample is
silently dropped.) -/
theorem c4_gap_filter (entries : List Entry) (g : Int) (out : List Entry)
    (h : filter_hour_gaps entries g = some out) (hne : entries ≠ [])
    (hdist : entries.Pairwise (fun a b => keyOf a ≠ keyOf b)) :
    out.head? = (sortByTS entries).head? ∧
    out.getLast? = (sortByTS entries).getLast? ∧
    (scanKeep g (sortByTS entries) none).Chain'
      (fun a b => (g - 5) * 60 ≤ keyOf b - keyOf a) := by
  obtain ⟨hhead, hsub, hlast, _⟩ := gapFilter_main entries g out h hne
  refine ⟨hhead, ?_, scanKeep_chain' g _ none⟩
  obtain ⟨fs, hfs⟩ : ∃ fs, (sortByTS entries).getLast? = some fs := by
    cases hq : (sortByTS entries).getLast? with
    | none =>
      have h0 : sortByTS entries = [] := List.getLast?_eq_none_iff.mp hq
      have hperm := sortByTS_perm entries
      rw [h0] at hperm
      exact absurd (List.Perm.eq_nil hperm.symm) hne
    | some f => exact ⟨f, rfl⟩
  rcases hlast fs hfs with h1 | ⟨fk, h1, hmem, hts⟩
  · rw [h1, hfs]
  · have hdistS : (sortByTS entries).Pairwise (fun a b => keyOf a ≠ keyOf b) :=
      (List.Perm.pairwise_iff (fun hxy => Ne.symm hxy) (sortByTS_perm entries)).mpr hdist
    have hkey : keyOf fk = keyOf fs := by
      unfold keyOf
      rw [hts]
    have hfkfs : fk = fs :=
      pairwise_ne_inj _ hdistS fk hmem fs (mem_of_getLast?_eq hfs) hkey
    rw [h1, hfs, hfkfs]

/-- Counterexample to C4 as stated: two entries share the timestamp string
`2024-01-01 10:00:00`; the scan drops the second, and the force-append test
compares timestamp strings — equal — so the final original sample
(play count 200) is *not* force-appended: the output does not contain the
last sample of the input. -/
theorem c4_counterexample :
    filter_hour_gaps [⟨"2024-01-01 10:00:00", "100"⟩,
        ⟨"2024-01-01 10:00:00", "200"⟩] 60
      = some [⟨"2024-01-01 10:00:00", "100"⟩] ∧
    (⟨"2024-01-01 10:00:00", "200"⟩ : Entry)
      ∉ [(⟨"2024-01-01 10:00:00", "100"⟩ : Entry)] := by
  constructor
  · simp +decide [filter_hour_gaps, sortByTS, List.insertionSort, List.orderedInsert,
      scanKeep, forceLast, keyOf, parse_ts, removeIST, stripChars, parseCore, digitVal,
      daysInMonth, tsLE, toSecs, daysBeforeYear, daysBeforeMonth]
  · decide

/-- Witness for C4: samples at 10:00 and 10:30 with distinct timestamps; the
30-minute spacing is below the 55-minute threshold, so 10:30 survives only
through the force-append, and the output begins and ends as the amended claim
states. -/
theorem c4_witness :
    ([⟨"2024-01-01 10:00:00", "100"⟩, ⟨"2024-01-01 10:30:00", "200"⟩]
        : List Entry).head?
      = (sortByTS [⟨"2024-01-01 10:00:00", "100"⟩,
          ⟨"2024-01-01 10:30:00", "200"⟩]).head? ∧
    ([⟨"2024-01-01 10:00:00", "100"⟩, ⟨"2024-01-01 10:30:00", "200"⟩]
        : List Entry).getLast?
      = (sortByTS [⟨"2024-01-01 10:00:00", "100"⟩,
          ⟨"2024-01-01 10:30:00", "200"⟩]).getLast? ∧
    (scanKeep 60 (sortByTS [⟨"2024-01-01 10:00:00", "100"⟩,
        ⟨"2024-01-01 10:30:00", "200"⟩]) none).Chain'
      (fun a b => (60 - 5) * 60 ≤ keyOf b - keyOf a) := by
  have hconc : filter_hour_gaps [⟨"2024-01-01 10:00:00", "100"⟩,
      ⟨"2024-01-01 10:30:00", "200"⟩] 60
      = some [⟨"2024-01-01 10:00:00", "100"⟩, ⟨"2024-01-01 10:30:00", "200"⟩] := by
    simp +decide [filter_hour_gaps, sortByTS, List.insertionSort, List.orderedInsert,
      scanKeep, forceLast, keyOf, parse_ts, removeIST, stripChars, parseCore, digitVal,
      daysInMonth, tsLE, toSecs, daysBeforeYear, daysBeforeMonth]
  exact c4_gap_filter _ 60 _ hconc (by simp)
    (by simp +decide [List.pairwise_cons, keyOf, parse_ts, removeIST, stripChars,
      parseCore, digitVal, daysInMonth, toSecs, daysBeforeYear, daysBeforeMonth])
